import Mathlib

/-!
Verification of the risk-aware navigation core of the SurakshaNet backend
(`app/api/v1/navigation.py`).

The shallow embedding below translates, from the source:
* the graph fetched from the map provider (node ids, directed edges carrying a
  `length` attribute in meters, node coordinates),
* the risk filter (`osmnx_route` step 3): per-zone nearest node plus the
  `nx.single_source_dijkstra_path_length(G, node, cutoff=30)` ball — note that
  this NetworkX call uses the default `weight="weight"` attribute, which the
  provider's edges do not carry, so every edge costs 1 and the cutoff counts
  edges (hops), not meters,
* the planner (`osmnx_route` step 4): `nx.shortest_path` on the filtered copy,
  falling back to the unfiltered graph, where `nx.shortest_path` with
  `weight="length"` is modelled by its contract — a minimum-cost path, the cost
  of a step being the least `length` among parallel edges,
* route synthesis (coordinates, `Proceed to (lat, lon)` instructions with the
  first and last entries overwritten by the fixed markers, and the truncated
  sum of great-circle distances; the great-circle function itself is an osmnx
  library call and is a parameter `gc` of the synthesis),
* the engine-selection branch and the request-normalization branch of
  `get_route`.
-/

namespace SurakshaNav

/-- A WGS-84 coordinate pair; latitudes/longitudes as exact rationals. -/
structure Coord where
  lat : ℚ
  lon : ℚ
deriving DecidableEq

/-- A directed edge of the walk network carrying its `length` attribute in
meters.  OSMnx multidigraphs store each walkable segment in both directions,
and may hold parallel edges. -/
structure Edge where
  src : Nat
  dst : Nat
  len : ℚ
deriving DecidableEq

/-- The in-memory graph fetched by `ox.graph_from_bbox`: node ids, directed
edges, and each node's stored coordinate (`G.nodes[n]["y"]`, `G.nodes[n]["x"]`). -/
structure Graph where
  nodes : List Nat
  edges : List Edge
  coordOf : Nat → Coord

/-- Provider guarantee: edge endpoints are nodes and lengths are non-negative. -/
def WF (G : Graph) : Prop :=
  ∀ e ∈ G.edges, e.src ∈ G.nodes ∧ e.dst ∈ G.nodes ∧ 0 ≤ e.len

instance (G : Graph) : Decidable (WF G) := by
  unfold WF; infer_instance

attribute [local semireducible] Rat.add Rat.mul Rat.sub Rat.inv

/-- Out-neighbors of `a` (deduplicated). -/
def nbrs (G : Graph) (a : Nat) : List Nat :=
  ((G.edges.filter (fun e => e.src == a)).map Edge.dst).dedup

/-- The `length` attributes of all parallel edges from `a` to `b`. -/
def stepWeights (G : Graph) (a b : Nat) : List ℚ :=
  (G.edges.filter (fun e => e.src == a && e.dst == b)).map Edge.len

/-- `a` has an edge to `b`. -/
def adj (G : Graph) (a b : Nat) : Prop :=
  stepWeights G a b ≠ []

instance (G : Graph) (a b : Nat) : Decidable (adj G a b) := by
  unfold adj; infer_instance

/-- Minimum of a list of rationals (0 for the empty list). -/
def listMin : List ℚ → ℚ
  | [] => 0
  | [x] => x
  | x :: y :: r => min x (listMin (y :: r))

/-- Cost of one step `a → b`: NetworkX weighs a multigraph step by the least
attribute among parallel edges. -/
def stepW (G : Graph) (a b : Nat) : ℚ :=
  listMin (stepWeights G a b)

/-- Total weighted length of a node sequence. -/
def cost (G : Graph) : List Nat → ℚ
  | [] => 0
  | [_] => 0
  | a :: b :: r => stepW G a b + cost G (b :: r)

/-- `p` is a walk from `a` to `b` inside `G`. -/
def IsWalk (G : Graph) (a b : Nat) (p : List Nat) : Prop :=
  p.head? = some a ∧ p.getLast? = some b ∧ (∀ x ∈ p, x ∈ G.nodes) ∧ p.Chain' (adj G)

instance (G : Graph) (a b : Nat) (p : List Nat) : Decidable (IsWalk G a b p) := by
  unfold IsWalk; infer_instance

/-- All duplicate-free walks ending at `b`, starting from `a`, avoiding
`visited`, of at most `fuel` steps. -/
def pathsAux (G : Graph) (b : Nat) : Nat → Nat → List Nat → List (List Nat)
  | 0, a, _ => if a = b then [[a]] else []
  | fuel + 1, a, visited =>
    if a = b then [[a]]
    else
      ((nbrs G a).filter (fun v => !((a :: visited).contains v))).flatMap
        (fun v => (pathsAux G b fuel v (a :: visited)).map (fun q => a :: q))

/-- All simple paths from `a` to `b` in `G` (empty when either endpoint is not
a node, mirroring the `NodeNotFound` exception of `nx.shortest_path`). -/
def simplePaths (G : Graph) (a b : Nat) : List (List Nat) :=
  if a ∈ G.nodes ∧ b ∈ G.nodes then pathsAux G b G.nodes.length a [] else []

/-- Contract of `nx.shortest_path(G, a, b, weight="length")`: a minimum-cost
path when one exists, `none` when the search raises (`NodeNotFound` /
`NetworkXNoPath`). -/
def shortestPath (G : Graph) (a b : Nat) : Option (List Nat) :=
  (simplePaths G a b).argmin (cost G)

inductive RouteType
  | safe
  | risky
deriving DecidableEq

/-- The spec's error taxonomy for the planner and synthesizer. -/
inductive RouteError
  | routeNotFound
  | graphTooLarge
  | degenerateRoute
  | invalidMode
  | invalidInput
deriving DecidableEq

/-- `G_safe = G.copy(); G_safe.remove_nodes_from(ex)`: drops the listed nodes
and every edge touching them; coordinates are untouched. -/
def removeNodes (G : Graph) (ex : List Nat) : Graph :=
  { nodes := G.nodes.filter (fun n => !(ex.contains n))
    edges := G.edges.filter (fun e => !(ex.contains e.src) && !(ex.contains e.dst))
    coordOf := G.coordOf }

/-- `osmnx_route` step 4: try the filtered copy, classify `safe`; on any
search failure retry on the unfiltered graph, classify `risky`; a failure of
the second search (`NetworkXNoPath`) is the route-not-found failure. -/
def plan (G : Graph) (o d : Nat) (ex : List Nat) :
    Except RouteError (List Nat × RouteType) :=
  match shortestPath (removeNodes G ex) o d with
  | some p => .ok (p, .safe)
  | none =>
    match shortestPath G o d with
    | some p => .ok (p, .risky)
    | none => .error .routeNotFound

/-- One frontier expansion: keep the current set and add all out-neighbors. -/
def ballStep (G : Graph) (s : List Nat) : List Nat :=
  (s ++ s.flatMap (nbrs G)).dedup

/-- `nx.single_source_dijkstra_path_length(G, n, cutoff=30)` as the source
calls it: no `weight` argument, so NetworkX reads the edges' `weight`
attribute, which the provider's edges lack, making every edge cost 1 — the
ball therefore holds exactly the nodes within 30 edges (hops) of `n`. -/
def hopBall (G : Graph) (n : Nat) : List Nat :=
  (ballStep G)^[30] [n]

/-- `osmnx_route` step 3: for every risk zone, its nearest node together with
the cutoff-30 ball around it, expansions taken on the full graph and unioned. -/
def riskNodes (G : Graph) (nearest : Coord → Nat) (zones : List Coord) : List Nat :=
  zones.flatMap (fun z => nearest z :: hopBall G (nearest z))

/-- The Risk Filter as the spec words it, for comparison with `riskNodes`:
each zone contributes its nearest node and every node whose shortest-path
distance from that node, measured along edge lengths, is at most the
avoidance radius. -/
def riskNodesSpec (G : Graph) (nearest : Coord → Nat) (radius : ℚ)
    (zones : List Coord) : List Nat :=
  zones.flatMap (fun z =>
    nearest z :: G.nodes.filter (fun v =>
      match shortestPath G (nearest z) v with
      | some p => decide (cost G p ≤ radius)
      | none => false))

/-- The instruction strings of `osmnx_route`, keeping their structure: the
fixed start marker, the fixed arrival marker, and the generic
`Proceed to (lat, lon)` line carrying the coordinate rounded to 5 decimal
places. -/
inductive Instr
  | start
  | arrived
  | proceed (lat lon : ℚ)
deriving DecidableEq

/-- Rounding to 5 decimal places (the `:.5f` format of the proceed line). -/
def round5 (q : ℚ) : ℚ :=
  ((round (q * 100000) : ℤ) : ℚ) / 100000

/-- Python's `int()` on a real value: truncation toward zero. -/
def pyInt (q : ℚ) : ℤ :=
  if 0 ≤ q then ⌊q⌋ else ⌈q⌉

/-- Sum of `gc` over consecutive points of a polyline. -/
def pairSum (gc : Coord → Coord → ℚ) : List Coord → ℚ
  | [] => 0
  | [_] => 0
  | a :: b :: r => gc a b + pairSum gc (b :: r)

/-- The generic `Proceed to (lat, lon)` instruction for one polyline point. -/
def proceedAt (c : Coord) : Instr :=
  .proceed (round5 c.lat) (round5 c.lon)

/-- Route synthesis (`osmnx_route` lines after the search): coordinates looked
up in the unfiltered graph, proceed instructions with index 0 then index -1
overwritten by the markers, and the truncated great-circle length.  `gc` is
`ox.utils_geo.great_circle_vec`.  The empty path is the one failing input: the
`instructions[0]` assignment raises `IndexError`. -/
def synth (gc : Coord → Coord → ℚ) (G : Graph) (route : List Nat) :
    Option (List Coord × ℤ × List Instr) :=
  match route with
  | [] => none
  | _ :: _ =>
    let coords := route.map G.coordOf
    let base := coords.map proceedAt
    let withStart := base.set 0 .start
    let instrs := withStart.set (withStart.length - 1) .arrived
    some (coords, pyInt (pairSum gc coords), instrs)

/-- The graph engine's response payload. -/
structure RouteOut where
  coords : List Coord
  dist : ℤ
  instrs : List Instr
  rtype : RouteType
deriving DecidableEq

/-- The whole `osmnx_route` body after the bounding-box fetch: nearest nodes
for the endpoints, the risk filter, the filtered-then-fallback search, and
synthesis.  `nearest` stands for `ox.nearest_nodes` on this graph.  (The
`degenerateRoute` branch is unreachable: the search never yields `[]`.) -/
def osmnxRoute (gc : Coord → Coord → ℚ) (nearest : Coord → Nat) (G : Graph)
    (fromC toC : Coord) (zones : List Coord) : Except RouteError RouteOut :=
  match plan G (nearest fromC) (nearest toC) (riskNodes G nearest zones) with
  | .error e => .error e
  | .ok (route, t) =>
    match synth gc G route with
    | none => .error .degenerateRoute
    | some (cs, dist, ins) => .ok ⟨cs, dist, ins, t⟩

inductive Engine
  | graph
  | external
deriving DecidableEq

/-- The routing-logic selection of `get_route`: risk zones present or mode
`"osm"` → the graph engine; else mode `"google"` or `"auto"` → the external
provider; else the invalid-mode error. -/
def selectEngine (mode : String) (zones : List Coord) : Except RouteError Engine :=
  if zones.length > 0 || mode == "osm" then .ok .graph
  else if mode == "google" || mode == "auto" then .ok .external
  else .error .invalidMode

/-- One endpoint of a `NavigationRequest`: optional latitude, longitude and
place name. -/
structure EndpointInput where
  lat : Option ℚ
  lon : Option ℚ
  place : Option String
deriving DecidableEq

/-- Python truthiness of the `from_place` / `to_place` field: absent and the
empty string are falsy. -/
def placeTruthy (e : EndpointInput) : Bool :=
  match e.place with
  | none => false
  | some s => !(s == "")

/-- The geocoding guard of `get_route`:
`(lat is None or lon is None) and place`. -/
def geocodeCond (e : EndpointInput) : Bool :=
  (e.lat.isNone || e.lon.isNone) && placeTruthy e

/-- Normalization of one endpoint: geocode exactly when the guard holds,
failing when the geocoder returns nothing; otherwise leave the coordinates
untouched.  `geo` stands for `geocode_address`. -/
def resolveEndpoint (geo : String → Option (ℚ × ℚ)) (e : EndpointInput) :
    Except RouteError (Option ℚ × Option ℚ) :=
  if geocodeCond e then
    match geo (e.place.getD "") with
    | none => .error .invalidInput
    | some (la, lo) => .ok (some la, some lo)
  else
    .ok (e.lat, e.lon)

/-- A navigation request's two endpoints. -/
structure NavRequest where
  fromE : EndpointInput
  toE : EndpointInput

/-- The input-normalization prefix of `get_route`: resolve both endpoints,
then reject the request iff any of the four coordinates is still missing. -/
def normalizeRequest (geo : String → Option (ℚ × ℚ)) (r : NavRequest) :
    Except RouteError ((ℚ × ℚ) × (ℚ × ℚ)) :=
  match resolveEndpoint geo r.fromE with
  | .error e => .error e
  | .ok (fla, flo) =>
    match resolveEndpoint geo r.toE with
    | .error e => .error e
    | .ok (tla, tlo) =>
      match fla, flo, tla, tlo with
      | some a, some b, some c, some d => .ok ((a, b), (c, d))
      | _, _, _, _ => .error .invalidInput

deriving instance DecidableEq for Except

/-! ### Concrete inputs used by witnesses and counterexamples -/

/-- A four-node square walk network, every segment 1 m, both directions. -/
def Gdemo : Graph :=
  { nodes := [0, 1, 2, 3]
    edges := [⟨0, 1, 1⟩, ⟨1, 0, 1⟩, ⟨1, 2, 1⟩, ⟨2, 1, 1⟩,
              ⟨2, 3, 1⟩, ⟨3, 2, 1⟩, ⟨3, 0, 1⟩, ⟨0, 3, 1⟩]
    coordOf := fun n =>
      match n with
      | 0 => ⟨0, 1⟩
      | 1 => ⟨1, 2⟩
      | 2 => ⟨2, 3⟩
      | _ => ⟨3, 4⟩ }

/-- A concrete non-negative distance function standing in for the
great-circle distance in witnesses. -/
def gcDemo : Coord → Coord → ℚ :=
  fun a b => |a.lat - b.lat| + |a.lon - b.lon|

/-- A straight-line walk network of `n` nodes, consecutive nodes 1 m apart. -/
def lineG (n : Nat) : Graph :=
  { nodes := List.range n
    edges := (List.range (n - 1)).flatMap (fun i => [⟨i, i + 1, 1⟩, ⟨i + 1, i, 1⟩])
    coordOf := fun _ => ⟨0, 0⟩ }

/-- Two nodes joined by a single 100 m segment. -/
def Ghop : Graph :=
  { nodes := [1, 2]
    edges := [⟨1, 2, 100⟩, ⟨2, 1, 100⟩]
    coordOf := fun _ => ⟨0, 0⟩ }

/-- A geocoder stub returning a fixed hit. -/
def geoDemo : String → Option (ℚ × ℚ) := fun _ => some (5, 5)

/-- An endpoint carrying both coordinates and a place name. -/
def epDemo : EndpointInput := ⟨some 1, some 2, some "Mahakal Ghat"⟩

/-! ### Helper lemmas -/

theorem listMin_nonneg : ∀ (l : List ℚ), (∀ x ∈ l, 0 ≤ x) → 0 ≤ listMin l := by
  intro l
  induction l with
  | nil => intro _; simp [listMin]
  | cons x r ih =>
    intro h
    cases r with
    | nil => simpa [listMin] using h x (by simp)
    | cons y t =>
      simp only [listMin]
      refine le_min (h x (by simp)) (ih ?_)
      intro z hz
      exact h z (by simp [hz])

theorem stepW_nonneg {G : Graph} (hWF : WF G) (a b : Nat) : 0 ≤ stepW G a b := by
  apply listMin_nonneg
  intro x hx
  unfold stepWeights at hx
  simp only [List.mem_map, List.mem_filter] at hx
  obtain ⟨e, ⟨he, _⟩, rfl⟩ := hx
  exact (hWF e he).2.2

theorem cost_nonneg {G : Graph} (hWF : WF G) : ∀ p, 0 ≤ cost G p := by
  intro p
  induction p with
  | nil => simp [cost]
  | cons a q ih =>
    cases q with
    | nil => simp [cost]
    | cons b r =>
      have h1 : cost G (a :: b :: r) = stepW G a b + cost G (b :: r) := rfl
      rw [h1]
      have := stepW_nonneg hWF a b
      linarith

theorem cost_append (G : Graph) : ∀ (s : List Nat) (x : Nat) (t : List Nat),
    cost G (s ++ x :: t) = cost G (s ++ [x]) + cost G (x :: t) := by
  intro s
  induction s with
  | nil =>
    intro x t
    simp [cost]
  | cons a s ih =>
    intro x t
    cases s with
    | nil =>
      have h1 : cost G ([a] ++ x :: t) = stepW G a x + cost G (x :: t) := rfl
      have h2 : cost G ([a] ++ [x]) = stepW G a x + cost G [x] := rfl
      rw [h1, h2]
      simp [cost]
    | cons b s' =>
      have h1 : cost G ((a :: b :: s') ++ x :: t)
          = stepW G a b + cost G ((b :: s') ++ x :: t) := rfl
      have h2 : cost G ((a :: b :: s') ++ [x])
          = stepW G a b + cost G ((b :: s') ++ [x]) := rfl
      rw [h1, h2, ih x t]
      ring

theorem pairSum_nonneg {gc : Coord → Coord → ℚ} (hgc : ∀ a b, 0 ≤ gc a b) :
    ∀ l, 0 ≤ pairSum gc l := by
  intro l
  induction l with
  | nil => simp [pairSum]
  | cons a q ih =>
    cases q with
    | nil => simp [pairSum]
    | cons b r =>
      have h1 : pairSum gc (a :: b :: r) = gc a b + pairSum gc (b :: r) := rfl
      rw [h1]
      have := hgc a b
      linarith

theorem adj_iff {G : Graph} {a v : Nat} :
    adj G a v ↔ ∃ e ∈ G.edges, e.src = a ∧ e.dst = v := by
  unfold adj stepWeights
  rw [Ne, List.map_eq_nil_iff, List.filter_eq_nil_iff]
  push_neg
  simp only [Bool.and_eq_true, beq_iff_eq, Decidable.not_not]

theorem mem_nbrs {G : Graph} {a v : Nat} : v ∈ nbrs G a ↔ adj G a v := by
  rw [adj_iff]
  unfold nbrs
  simp only [List.mem_dedup, List.mem_map, List.mem_filter, beq_iff_eq]
  constructor
  · rintro ⟨e, ⟨he, hs⟩, rfl⟩
    exact ⟨e, he, hs, rfl⟩
  · rintro ⟨e, he, hs, hd⟩
    exact ⟨e, ⟨he, hs⟩, hd⟩

theorem mem_of_head? {l : List Nat} {a : Nat} (h : l.head? = some a) : a ∈ l := by
  cases l with
  | nil => simp at h
  | cons y ys =>
    have hy : y = a := by simpa using h
    subst hy
    exact List.mem_cons_self _ _

theorem mem_of_getLast? {l : List Nat} {a : Nat} (h : l.getLast? = some a) :
    a ∈ l := by
  have h' : l.reverse.head? = some a := by rw [List.head?_reverse, h]
  have := mem_of_head? h'
  simpa using this

/-- Soundness of the path enumeration: every produced list is a duplicate-free
chain from `a` to `b` avoiding `visited`. -/
theorem pathsAux_sound {G : Graph} {b : Nat} :
    ∀ (fuel a : Nat) (visited p : List Nat),
      p ∈ pathsAux G b fuel a visited → a ∉ visited →
      p.head? = some a ∧ p.getLast? = some b ∧ p.Chain' (adj G) ∧ p.Nodup
        ∧ ∀ x ∈ p, x ∉ visited := by
  intro fuel
  induction fuel with
  | zero =>
    intro a visited p hp ha
    by_cases hab : a = b
    · subst hab
      simp only [pathsAux, if_true, List.mem_singleton] at hp
      subst hp
      refine ⟨rfl, rfl, ?_, ?_, ?_⟩ <;> simp [ha]
    · simp [pathsAux, hab] at hp
  | succ fuel ih =>
    intro a visited p hp ha
    by_cases hab : a = b
    · subst hab
      simp only [pathsAux, if_true, List.mem_singleton] at hp
      subst hp
      refine ⟨rfl, rfl, ?_, ?_, ?_⟩ <;> simp [ha]
    · rw [pathsAux, if_neg hab] at hp
      simp only [List.mem_flatMap, List.mem_map, List.mem_filter] at hp
      obtain ⟨v, ⟨hvn, hvb⟩, q, hq, rfl⟩ := hp
      have hvv : v ∉ a :: visited := by simpa using hvb
      obtain ⟨hh, hl, hc, hn, hvis⟩ := ih v (a :: visited) q hq hvv
      refine ⟨rfl, ?_, ?_, ?_, ?_⟩
      · cases q with
        | nil => simp at hh
        | cons y ys => rw [List.getLast?_cons_cons]; exact hl
      · rw [List.chain'_cons']
        refine ⟨?_, hc⟩
        intro y hy
        rw [hh] at hy
        have hyv : v = y := by simpa using hy
        subst hyv
        exact mem_nbrs.mp hvn
      · rw [List.nodup_cons]
        refine ⟨?_, hn⟩
        intro hmem
        exact hvis a hmem (List.mem_cons_self _ _)
      · intro x hx
        rcases List.mem_cons.mp hx with rfl | hx'
        · exact ha
        · intro hxv
          exact hvis x hx' (List.mem_cons_of_mem _ hxv)

/-- On a well-formed graph every chain starting at a node stays inside the
node set. -/
theorem chain_mem_nodes {G : Graph} (hWF : WF G) :
    ∀ (p : List Nat) (a : Nat), p.head? = some a → a ∈ G.nodes →
      p.Chain' (adj G) → ∀ x ∈ p, x ∈ G.nodes := by
  intro p
  induction p with
  | nil => intro a h; simp at h
  | cons y q ih =>
    intro a hh ha hc x hx
    have hy : y = a := by simpa using hh
    subst hy
    rcases List.mem_cons.mp hx with rfl | hx'
    · exact ha
    · cases q with
      | nil => simp at hx'
      | cons z r =>
        rw [List.chain'_cons] at hc
        have hz : z ∈ G.nodes := by
          obtain ⟨e, he, _, hd⟩ := adj_iff.mp hc.1
          rw [← hd]
          exact (hWF e he).2.1
        exact ih z rfl hz hc.2 x hx'

/-- Completeness of the path enumeration: every duplicate-free chain from `a`
to `b` avoiding `visited` and short enough for the fuel is produced. -/
theorem pathsAux_complete {G : Graph} {b : Nat} :
    ∀ (fuel : Nat) (p : List Nat) (a : Nat) (visited : List Nat),
      p.head? = some a → p.getLast? = some b → p.Chain' (adj G) → p.Nodup →
      (∀ x ∈ p, x ∉ visited) → p.length ≤ fuel + 1 →
      p ∈ pathsAux G b fuel a visited := by
  intro fuel
  induction fuel with
  | zero =>
    intro p a visited hh hl hc hn hv hlen
    cases p with
    | nil => simp at hh
    | cons y q =>
      have hy : y = a := by simpa using hh
      subst hy
      cases q with
      | nil =>
        have hab : y = b := by simpa using hl
        simp [pathsAux, hab]
      | cons z r =>
        simp only [List.length_cons] at hlen
        omega
  | succ fuel ih =>
    intro p a visited hh hl hc hn hv hlen
    cases p with
    | nil => simp at hh
    | cons y q =>
      have hy : y = a := by simpa using hh
      subst hy
      cases q with
      | nil =>
        have hab : y = b := by simpa using hl
        simp [pathsAux, hab]
      | cons v r =>
        have hbtl : (v :: r).getLast? = some b := by
          rw [← List.getLast?_cons_cons (a := y)]
          exact hl
        have hab : y ≠ b := by
          intro hEq
          subst hEq
          have hbmem : y ∈ v :: r := mem_of_getLast? hbtl
          exact (List.nodup_cons.mp hn).1 hbmem
        rw [pathsAux, if_neg hab]
        simp only [List.mem_flatMap, List.mem_map, List.mem_filter]
        have hva : v ≠ y := by
          intro hEq
          exact (List.nodup_cons.mp hn).1 (hEq ▸ List.mem_cons_self _ _)
        refine ⟨v, ⟨?_, ?_⟩, ?_⟩
        · exact mem_nbrs.mpr (List.chain'_cons.mp hc).1
        · have hvv : v ∉ visited := hv v (by simp)
          simp [hva, hvv]
        · refine ⟨v :: r, ?_, rfl⟩
          apply ih
          · rfl
          · exact hbtl
          · exact (List.chain'_cons.mp hc).2
          · exact (List.nodup_cons.mp hn).2
          · intro x hx hmem
            rcases List.mem_cons.mp hmem with rfl | hmem'
            · exact (List.nodup_cons.mp hn).1 hx
            · exact hv x (List.mem_cons_of_mem _ hx) hmem'
          · simp only [List.length_cons] at hlen ⊢
            omega

/-- Splitting a list with a duplicate around its repeated element. -/
theorem not_nodup_split {l : List Nat} (h : ¬ l.Nodup) :
    ∃ x l₁ l₂ l₃, l = l₁ ++ x :: (l₂ ++ x :: l₃) := by
  induction l with
  | nil => simp at h
  | cons a xs ih =>
    by_cases hmem : a ∈ xs
    · obtain ⟨s, t, rfl⟩ := List.append_of_mem hmem
      exact ⟨a, [], s, t, by simp⟩
    · have hnd : ¬ xs.Nodup := by
        intro hxs
        exact h (List.nodup_cons.mpr ⟨hmem, hxs⟩)
      obtain ⟨x, l₁, l₂, l₃, rfl⟩ := ih hnd
      exact ⟨x, a :: l₁, l₂, l₃, by simp⟩

theorem head?_append_cons {α : Type} (s : List α) (x : α) (t t' : List α) :
    (s ++ x :: t).head? = (s ++ x :: t').head? := by
  cases s <;> rfl

theorem getLast?_append_cons {α : Type} : ∀ (s : List α) (x : α) (t : List α),
    (s ++ x :: t).getLast? = (x :: t).getLast? := by
  intro s
  induction s with
  | nil => intro x t; rfl
  | cons a s ih =>
    intro x t
    obtain ⟨y, ys, hys⟩ : ∃ y ys, s ++ x :: t = y :: ys := by
      cases s with
      | nil => exact ⟨x, t, rfl⟩
      | cons c cs => exact ⟨c, cs ++ x :: t, rfl⟩
    rw [List.cons_append, hys, List.getLast?_cons_cons, ← hys, ih]

/-- Cutting a loop out of a chain keeps it a chain. -/
theorem chain'_cut {R : Nat → Nat → Prop} {l₁ l₂ l₃ : List Nat} {x : Nat}
    (h : List.Chain' R (l₁ ++ x :: (l₂ ++ x :: l₃))) :
    List.Chain' R (l₁ ++ x :: l₃) := by
  rw [List.chain'_append] at h
  obtain ⟨h1, h2, h3⟩ := h
  rw [List.chain'_append]
  refine ⟨h1, ?_, ?_⟩
  · have h2' : List.Chain' R ((x :: l₂) ++ (x :: l₃)) := by
      simpa using h2
    exact (List.chain'_append.mp h2').2.1
  · intro p hp q hq
    apply h3 p hp
    simpa using hq

/-- Cutting a loop does not increase the cost (lengths are non-negative). -/
theorem cost_cut {G : Graph} (hWF : WF G) (l₁ l₂ l₃ : List Nat) (x : Nat) :
    cost G (l₁ ++ x :: l₃) ≤ cost G (l₁ ++ x :: (l₂ ++ x :: l₃)) := by
  have e1 : cost G (l₁ ++ x :: (l₂ ++ x :: l₃))
      = cost G (l₁ ++ [x]) + cost G (x :: (l₂ ++ x :: l₃)) := cost_append G l₁ x _
  have e2 : cost G (x :: (l₂ ++ x :: l₃))
      = cost G ((x :: l₂) ++ [x]) + cost G (x :: l₃) := cost_append G (x :: l₂) x l₃
  have e3 : cost G (l₁ ++ x :: l₃)
      = cost G (l₁ ++ [x]) + cost G (x :: l₃) := cost_append G l₁ x l₃
  have e4 : 0 ≤ cost G ((x :: l₂) ++ [x]) := cost_nonneg hWF _
  rw [e3, e1, e2]
  linarith

/-- Any walk can be de-looped into a duplicate-free walk of no greater cost. -/
theorem exists_nodup_walk {G : Graph} (hWF : WF G) {a b : Nat} :
    ∀ (n : Nat) (p : List Nat), p.length ≤ n →
      p.head? = some a → p.getLast? = some b → p.Chain' (adj G) →
      (∀ x ∈ p, x ∈ G.nodes) →
      ∃ q, q.head? = some a ∧ q.getLast? = some b ∧ q.Chain' (adj G)
        ∧ (∀ x ∈ q, x ∈ G.nodes) ∧ q.Nodup ∧ cost G q ≤ cost G p := by
  intro n
  induction n with
  | zero =>
    intro p hlen hh
    cases p with
    | nil => simp at hh
    | cons y q => simp at hlen
  | succ n ih =>
    intro p hlen hh hl hc hm
    by_cases hnd : p.Nodup
    · exact ⟨p, hh, hl, hc, hm, hnd, le_refl _⟩
    · obtain ⟨x, l₁, l₂, l₃, rfl⟩ := not_nodup_split hnd
      have hh' : (l₁ ++ x :: l₃).head? = some a := by
        rw [head?_append_cons l₁ x l₃ (l₂ ++ x :: l₃)]
        exact hh
      have hl' : (l₁ ++ x :: l₃).getLast? = some b := by
        rw [getLast?_append_cons]
        rw [getLast?_append_cons] at hl
        rw [show (x :: (l₂ ++ x :: l₃)) = (x :: l₂) ++ (x :: l₃) by simp] at hl
        rw [getLast?_append_cons] at hl
        exact hl
      have hc' := chain'_cut hc
      have hm' : ∀ y ∈ l₁ ++ x :: l₃, y ∈ G.nodes := by
        intro y hy
        apply hm y
        simp only [List.mem_append, List.mem_cons] at hy ⊢
        tauto
      have hlen' : (l₁ ++ x :: l₃).length ≤ n := by
        simp only [List.length_append, List.length_cons] at hlen ⊢
        omega
      obtain ⟨q, hqh, hql, hqc, hqm, hqn, hqcost⟩ := ih _ hlen' hh' hl' hc' hm'
      exact ⟨q, hqh, hql, hqc, hqm, hqn,
        le_trans hqcost (cost_cut hWF l₁ l₂ l₃ x)⟩

/-- A returned shortest path is a duplicate-free walk between the endpoints. -/
theorem sp_walk {G : Graph} {a b : Nat} {p : List Nat} (hWF : WF G)
    (h : shortestPath G a b = some p) : IsWalk G a b p ∧ p.Nodup := by
  have hmem : p ∈ simplePaths G a b :=
    List.argmin_mem (show p ∈ (simplePaths G a b).argmin (cost G) from h)
  unfold simplePaths at hmem
  by_cases hab : a ∈ G.nodes ∧ b ∈ G.nodes
  · rw [if_pos hab] at hmem
    obtain ⟨hh, hl, hc, hn, _⟩ := pathsAux_sound _ a [] p hmem (by simp)
    have hmemN := chain_mem_nodes hWF p a hh hab.1 hc
    exact ⟨⟨hh, hl, hmemN, hc⟩, hn⟩
  · rw [if_neg hab] at hmem
    simp at hmem

/-- A returned shortest path costs no more than any walk between the
endpoints. -/
theorem sp_min {G : Graph} {a b : Nat} {p : List Nat} (hWF : WF G)
    (h : shortestPath G a b = some p) :
    ∀ q, IsWalk G a b q → cost G p ≤ cost G q := by
  intro q hq
  obtain ⟨hh, hl, hm, hc⟩ := hq
  obtain ⟨q', hh', hl', hc', hm', hn', hcost⟩ :=
    exists_nodup_walk hWF q.length q (le_refl _) hh hl hc hm
  have haG : a ∈ G.nodes := hm a (mem_of_head? hh)
  have hbG : b ∈ G.nodes := hm b (mem_of_getLast? hl)
  have hlen : q'.length ≤ G.nodes.length + 1 := by
    have := List.Subperm.length_le (List.Nodup.subperm hn' hm')
    omega
  have hq'mem : q' ∈ simplePaths G a b := by
    unfold simplePaths
    rw [if_pos ⟨haG, hbG⟩]
    exact pathsAux_complete _ q' a [] hh' hl' hc' hn' (by simp) hlen
  have hle := List.le_of_mem_argmin hq'mem
    (show p ∈ (simplePaths G a b).argmin (cost G) from h)
  exact le_trans hle hcost

/-- The search succeeds whenever any walk connects the endpoints. -/
theorem sp_some_of_walk {G : Graph} {a b : Nat} {q : List Nat} (hWF : WF G)
    (hq : IsWalk G a b q) : ∃ p, shortestPath G a b = some p := by
  rcases hsp : shortestPath G a b with _ | p
  · exfalso
    obtain ⟨hh, hl, hm, hc⟩ := hq
    obtain ⟨q', hh', hl', hc', hm', hn', _⟩ :=
      exists_nodup_walk hWF q.length q (le_refl _) hh hl hc hm
    have haG : a ∈ G.nodes := hm a (mem_of_head? hh)
    have hbG : b ∈ G.nodes := hm b (mem_of_getLast? hl)
    have hlen : q'.length ≤ G.nodes.length + 1 := by
      have := List.Subperm.length_le (List.Nodup.subperm hn' hm')
      omega
    have hq'mem : q' ∈ simplePaths G a b := by
      unfold simplePaths
      rw [if_pos ⟨haG, hbG⟩]
      exact pathsAux_complete _ q' a [] hh' hl' hc' hn' (by simp) hlen
    have hnil : simplePaths G a b = [] :=
      List.argmin_eq_none.mp (show (simplePaths G a b).argmin (cost G) = none from hsp)
    rw [hnil] at hq'mem
    simp at hq'mem
  · exact ⟨p, rfl⟩

/-- Removing nodes preserves well-formedness. -/
theorem WF_removeNodes {G : Graph} (hWF : WF G) (ex : List Nat) :
    WF (removeNodes G ex) := by
  intro e he
  unfold removeNodes at he ⊢
  simp only [List.mem_filter, Bool.and_eq_true, Bool.not_eq_true'] at he
  obtain ⟨heG, hsrc, hdst⟩ := he
  obtain ⟨h1, h2, h3⟩ := hWF e heG
  refine ⟨?_, ?_, h3⟩ <;>
    simp only [List.mem_filter, Bool.not_eq_true'] <;> tauto

theorem mem_removeNodes_nodes {G : Graph} {ex : List Nat} {x : Nat} :
    x ∈ (removeNodes G ex).nodes ↔ x ∈ G.nodes ∧ x ∉ ex := by
  unfold removeNodes
  simp [List.mem_filter]

theorem mem_removeNodes_edges {G : Graph} {ex : List Nat} {e : Edge} :
    e ∈ (removeNodes G ex).edges ↔ e ∈ G.edges ∧ e.src ∉ ex ∧ e.dst ∉ ex := by
  unfold removeNodes
  simp [List.mem_filter]

/-- A walk of the filtered graph is a walk of the original graph. -/
theorem walk_of_filtered {G : Graph} {ex : List Nat} {a b : Nat} {p : List Nat}
    (h : IsWalk (removeNodes G ex) a b p) : IsWalk G a b p := by
  obtain ⟨hh, hl, hm, hc⟩ := h
  refine ⟨hh, hl, ?_, ?_⟩
  · intro x hx
    exact (mem_removeNodes_nodes.mp (hm x hx)).1
  · refine List.Chain'.imp ?_ hc
    intro u v huv
    rw [adj_iff] at huv ⊢
    obtain ⟨e, he, hs, hd⟩ := huv
    exact ⟨e, (mem_removeNodes_edges.mp he).1, hs, hd⟩

/-- A walk of the original graph avoiding the excluded nodes is a walk of the
filtered graph. -/
theorem walk_avoiding {G : Graph} {ex : List Nat} {a b : Nat} {p : List Nat}
    (h : IsWalk G a b p) (hav : ∀ x ∈ p, x ∉ ex) :
    IsWalk (removeNodes G ex) a b p := by
  obtain ⟨hh, hl, hm, hc⟩ := h
  refine ⟨hh, hl, ?_, ?_⟩
  · intro x hx
    exact mem_removeNodes_nodes.mpr ⟨hm x hx, hav x hx⟩
  · clear hh hl hm
    induction p with
    | nil => simp
    | cons u q ih =>
      cases q with
      | nil => simp
      | cons v r =>
        rw [List.chain'_cons] at hc ⊢
        obtain ⟨h1, h2⟩ := hc
        refine ⟨?_, ih (fun x hx => hav x (List.mem_cons_of_mem _ hx)) h2⟩
        rw [adj_iff] at h1 ⊢
        obtain ⟨e, he, hs, hd⟩ := h1
        refine ⟨e, mem_removeNodes_edges.mpr ⟨he, ?_, ?_⟩, hs, hd⟩
        · rw [hs]; exact hav u (by simp)
        · rw [hd]; exact hav v (by simp)

/-! ### Claim C1: the filtered-first / fallback-second planner -/

/-- Claim C1: on a well-formed graph, the planner fails (with the
route-not-found error) exactly when no walk joins origin and destination in
the unfiltered graph; a route classified `safe` is a minimum-cost walk of the
filtered graph (the graph minus the excluded nodes and the edges touching
them); a route classified `risky` is returned exactly when the filtered graph
has no connecting walk, and is then a minimum-cost walk of the unfiltered
original graph. -/
theorem claim_C1_plan (G : Graph) (o d : Nat) (ex : List Nat) (hWF : WF G) :
    (plan G o d ex = .error .routeNotFound ↔ ∀ q, ¬ IsWalk G o d q)
    ∧ (∀ p t, plan G o d ex = .ok (p, t) →
        (t = .safe → IsWalk (removeNodes G ex) o d p
          ∧ ∀ q, IsWalk (removeNodes G ex) o d q →
              cost (removeNodes G ex) p ≤ cost (removeNodes G ex) q)
        ∧ (t = .risky → (∀ q, ¬ IsWalk (removeNodes G ex) o d q)
          ∧ IsWalk G o d p ∧ ∀ q, IsWalk G o d q → cost G p ≤ cost G q)) := by
  have hWF' : WF (removeNodes G ex) := WF_removeNodes hWF ex
  constructor
  · constructor
    · intro herr q hq
      unfold plan at herr
      rcases h1 : shortestPath (removeNodes G ex) o d with _ | p₁
      · rcases h2 : shortestPath G o d with _ | p₂
        · obtain ⟨p', hp'⟩ := sp_some_of_walk hWF hq
          rw [hp'] at h2
          cases h2
        · rw [h1, h2] at herr
          cases herr
      · rw [h1] at herr
        cases herr
    · intro hnall
      unfold plan
      rcases h1 : shortestPath (removeNodes G ex) o d with _ | p₁
      · rcases h2 : shortestPath G o d with _ | p₂
        · rfl
        · exact absurd (sp_walk hWF h2).1 (hnall p₂)
      · exact absurd (walk_of_filtered (sp_walk hWF' h1).1) (hnall p₁)
  · intro p t hok
    unfold plan at hok
    rcases h1 : shortestPath (removeNodes G ex) o d with _ | p₁
    · rcases h2 : shortestPath G o d with _ | p₂
      · rw [h1, h2] at hok
        cases hok
      · rw [h1, h2] at hok
        have hpt : p₂ = p ∧ RouteType.risky = t := by simpa using hok
        obtain ⟨rfl, rfl⟩ := hpt
        constructor
        · intro hst
          cases hst
        · intro _
          refine ⟨?_, (sp_walk hWF h2).1, sp_min hWF h2⟩
          intro q hq
          obtain ⟨p', hp'⟩ := sp_some_of_walk hWF' hq
          rw [hp'] at h1
          cases h1
    · rw [h1] at hok
      have hpt : p₁ = p ∧ RouteType.safe = t := by simpa using hok
      obtain ⟨rfl, rfl⟩ := hpt
      constructor
      · intro _
        exact ⟨(sp_walk hWF' h1).1, sp_min hWF' h1⟩
      · intro hst
        cases hst

/-- Claim C1 witness: on the square graph with node 1 excluded, the planner's
`safe` answer `[0, 3, 2]` is indeed a walk of the filtered graph. -/
theorem claim_C1_witness : IsWalk (removeNodes Gdemo [1]) 0 2 [0, 3, 2] :=
  (((claim_C1_plan Gdemo 0 2 [1] (by decide)).2 [0, 3, 2] .safe (by decide)).1 rfl).1

/-! ### Claim C2: `risky` iff the path meets the excluded set -/

/-- Claim C2: a returned route is classified `risky` exactly when it passes
through at least one excluded node: a `safe` route avoids every excluded node
and a `risky` route meets one (were the fallback path disjoint from the
excluded set it would have survived filtering, contradicting the failure of
the filtered search). -/
theorem claim_C2_risky_iff (G : Graph) (o d : Nat) (ex : List Nat)
    (p : List Nat) (t : RouteType) (hWF : WF G)
    (h : plan G o d ex = .ok (p, t)) :
    t = .risky ↔ ∃ x ∈ p, x ∈ ex := by
  have hWF' : WF (removeNodes G ex) := WF_removeNodes hWF ex
  unfold plan at h
  rcases h1 : shortestPath (removeNodes G ex) o d with _ | p₁
  · rcases h2 : shortestPath G o d with _ | p₂
    · rw [h1, h2] at h
      cases h
    · rw [h1, h2] at h
      have hpt : p₂ = p ∧ RouteType.risky = t := by simpa using h
      obtain ⟨rfl, rfl⟩ := hpt
      constructor
      · intro _
        by_contra hno
        push_neg at hno
        have hw : IsWalk (removeNodes G ex) o d p₂ :=
          walk_avoiding (sp_walk hWF h2).1 hno
        obtain ⟨p', hp'⟩ := sp_some_of_walk hWF' hw
        rw [hp'] at h1
        cases h1
      · intro _
        rfl
  · rw [h1] at h
    have hpt : p₁ = p ∧ RouteType.safe = t := by simpa using h
    obtain ⟨rfl, rfl⟩ := hpt
    constructor
    · intro hst
      cases hst
    · rintro ⟨x, hxp, hxex⟩
      have hw := (sp_walk hWF' h1).1
      have hxn := hw.2.2.1 x hxp
      exact absurd hxex (mem_removeNodes_nodes.mp hxn).2

/-- Claim C2 witness: with nodes 1 and 3 excluded the square graph
disconnects, the fallback route `[0, 1, 2]` is classified `risky`, and it
does pass through an excluded node. -/
theorem claim_C2_witness : ∃ x ∈ ([0, 1, 2] : List Nat), x ∈ ([1, 3] : List Nat) :=
  (claim_C2_risky_iff Gdemo 0 2 [1, 3] [0, 1, 2] .risky (by decide) (by decide)).mp rfl

/-! ### Claim C3: engine selection -/

/-- Claim C3 counterexample: with a non-empty risk-zone list the code routes
through the graph engine even in mode `google` (the spec's `external`), and
even for an unrecognized mode — refuting "mode `external` always delegates to
the external provider and an unrecognized mode always fails". -/
theorem claim_C3_counterexample :
    selectEngine "google" [⟨0, 0⟩] = .ok .graph
    ∧ selectEngine "weird" [⟨0, 0⟩] = .ok .graph := by
  exact ⟨rfl, rfl⟩

/-- Claim C3 (amended): a non-empty risk-zone list always selects the graph
engine, whatever the mode; with an empty zone list, mode `osm` selects the
graph engine, `google` and `auto` delegate to the external provider, and any
other mode fails with the invalid-mode error. -/
theorem claim_C3_selectEngine (mode : String) (zones : List Coord) :
    (selectEngine mode zones = .ok .graph ↔ (zones ≠ [] ∨ mode = "osm"))
    ∧ (selectEngine mode zones = .ok .external
        ↔ (zones = [] ∧ (mode = "google" ∨ mode = "auto")))
    ∧ (selectEngine mode zones = .error .invalidMode
        ↔ (zones = [] ∧ mode ≠ "osm" ∧ mode ≠ "google" ∧ mode ≠ "auto")) := by
  rcases zones with _ | ⟨z, zs⟩ <;>
    by_cases h1 : mode = "osm" <;> by_cases h2 : mode = "google" <;>
      by_cases h3 : mode = "auto" <;>
        simp_all [selectEngine]

/-- Claim C3 witness: mode `auto` with no risk zones delegates externally. -/
theorem claim_C3_witness : selectEngine "auto" [] = .ok .external :=
  (claim_C3_selectEngine "auto" []).2.1.mpr ⟨rfl, Or.inr rfl⟩

/-! ### Claim C4: degenerate routes -/

/-- Claim C4 counterexample: a one-point node path (origin and destination at
the same nearest node) is synthesized successfully — one coordinate, distance
0, a lone arrival marker — instead of failing as the claim states. -/
theorem claim_C4_counterexample :
    synth gcDemo Gdemo [1] = some ([⟨1, 2⟩], 0, [Instr.arrived]) := by
  decide

/-- Claim C4 (amended): synthesis fails only for the empty path (the
`instructions[0]` assignment would raise); every nonempty path — in
particular the one-point path from coincident endpoints — is returned as a
route, the one-point path as a single coordinate, distance 0 and a lone
arrival marker. -/
theorem claim_C4_synth (gc : Coord → Coord → ℚ) (G : Graph) (n x : Nat)
    (r : List Nat) :
    synth gc G [] = none
    ∧ synth gc G [n] = some ([G.coordOf n], 0, [Instr.arrived])
    ∧ (synth gc G (x :: r)).isSome = true := by
  refine ⟨rfl, ?_, by simp [synth]⟩
  simp [synth, pairSum, pyInt]

/-! ### Claim C8: no visited-node bound -/

/-- Claim C8 counterexample: a 40-node straight-line search succeeds end to
end — no graph-size failure is ever produced, whatever bound the spec's
"configurable bound" might denote below 40 visited nodes. -/
theorem claim_C8_counterexample :
    plan (lineG 40) 0 39 [] = .ok (List.range 40, .safe) := by
  decide

/-- Claim C8 (amended): the planner enforces no visited-node bound: no input
whatsoever makes it fail with the graph-too-large error; its only hard
failure is route-not-found. -/
theorem claim_C8_noBound (G : Graph) (o d : Nat) (ex : List Nat) :
    plan G o d ex ≠ .error .graphTooLarge := by
  unfold plan
  rcases shortestPath (removeNodes G ex) o d with _ | p
  · rcases shortestPath G o d with _ | p <;> simp
  · simp

/-- Claim C8 witness: the amended statement at the 40-node line input. -/
theorem claim_C8_witness : plan (lineG 40) 0 39 [] ≠ .error .graphTooLarge :=
  claim_C8_noBound (lineG 40) 0 39 []

/-! ### Claim C5: the avoidance cutoff measures hops, not meters -/

/-- Claim C5 (code bug): on a graph whose two nodes are joined by a single
100 m segment, the risk filter excludes the far node — the dijkstra call
omits `weight="length"`, so its cutoff of 30 counts edges (one hop) rather
than meters — although that node's shortest-path distance along edge lengths
is 100 m, far beyond the 30 m radius the code's own comment announces; the
spec-worded length-based filter keeps it. -/
theorem claim_C5_cutoff_bug :
    2 ∈ riskNodes Ghop (fun _ => 1) [⟨0, 0⟩]
    ∧ shortestPath Ghop 1 2 = some [1, 2]
    ∧ cost Ghop [1, 2] = 100
    ∧ ¬ ((100 : ℚ) ≤ 30)
    ∧ 2 ∉ riskNodesSpec Ghop (fun _ => 1) 30 [⟨0, 0⟩] := by
  decide

/-! ### Claims C6, C7, C9: synthesis and the pristine original graph -/

theorem pyInt_nonneg {q : ℚ} (h : 0 ≤ q) : 0 ≤ pyInt q := by
  unfold pyInt
  rw [if_pos h]
  exact Int.floor_nonneg.mpr h

/-- Writing at the last position splits off the dropped last element. -/
theorem set_last_eq {α : Type} (v : α) :
    ∀ (l : List α), l ≠ [] → l.set (l.length - 1) v = l.dropLast ++ [v] := by
  intro l
  induction l with
  | nil => intro h; cases h rfl
  | cons x t ih =>
    intro _
    cases t with
    | nil => rfl
    | cons y s =>
      have h1 : (x :: y :: s).length - 1 = s.length + 1 := by simp
      rw [h1, List.set_cons_succ]
      have h2 : s.length = (y :: s).length - 1 := by simp
      rw [h2, ih (by simp)]
      rfl

/-- Closed form of route synthesis on a path of at least two points. -/
theorem synth_cons_cons (gc : Coord → Coord → ℚ) (G : Graph) (a v : Nat)
    (rest : List Nat) :
    synth gc G (a :: v :: rest) = some ((a :: v :: rest).map G.coordOf,
      pyInt (pairSum gc ((a :: v :: rest).map G.coordOf)),
      .start :: (((v :: rest).map (fun n => proceedAt (G.coordOf n))).dropLast
        ++ [.arrived])) := by
  show some _ = some _
  have e1 : ((a :: v :: rest).map G.coordOf).map proceedAt
      = proceedAt (G.coordOf a) :: (v :: rest).map (fun n => proceedAt (G.coordOf n)) := by
    simp [List.map_map, Function.comp]
  have e2 : (((a :: v :: rest).map G.coordOf).map proceedAt).set 0 .start
      = .start :: (v :: rest).map (fun n => proceedAt (G.coordOf n)) := by
    rw [e1, List.set_cons_zero]
  rw [e2]
  have e3 : (Instr.start :: (v :: rest).map (fun n => proceedAt (G.coordOf n))).length - 1
      = ((v :: rest).map (fun n => proceedAt (G.coordOf n))).length := by
    simp
  rw [e3]
  have e4 : ((v :: rest).map (fun n => proceedAt (G.coordOf n))).length
      = ((v :: rest).map (fun n => proceedAt (G.coordOf n))).length - 1 + 1 := by
    simp
  rw [e4, List.set_cons_succ,
    set_last_eq _ ((v :: rest).map (fun n => proceedAt (G.coordOf n))) (by simp)]

/-- Claim C7: synthesis of an `N ≥ 2`-point path yields exactly `N`
instructions, the first the fixed start marker, the last the fixed arrival
marker, and each interior one the generic proceed instruction carrying that
point's coordinate rounded to five decimals. -/
theorem claim_C7_instructions (gc : Coord → Coord → ℚ) (G : Graph)
    (route : List Nat) (coords : List Coord) (dist : ℤ) (ins : List Instr)
    (h2 : 2 ≤ route.length) (h : synth gc G route = some (coords, dist, ins)) :
    ins.length = route.length
    ∧ ins.head? = some .start
    ∧ ins.getLast? = some .arrived
    ∧ ∀ i n, 0 < i → i + 1 < route.length → route[i]? = some n →
        ins[i]? = some (proceedAt (G.coordOf n)) := by
  rcases route with _ | ⟨a, rtail⟩
  · simp at h2
  rcases rtail with _ | ⟨v, rest⟩
  · simp at h2
  rw [synth_cons_cons] at h
  have hins : Instr.start ::
      (((v :: rest).map (fun n => proceedAt (G.coordOf n))).dropLast
        ++ [Instr.arrived]) = ins := by
    have hp : (_ : List Coord × ℤ × List Instr) = (coords, dist, ins) :=
      Option.some.inj h
    exact congrArg (fun z => z.2.2) hp
  rw [← hins]
  refine ⟨?_, rfl, ?_, ?_⟩
  · simp
  · rw [show (Instr.start ::
        (((v :: rest).map (fun n => proceedAt (G.coordOf n))).dropLast
          ++ [Instr.arrived]))
        = (Instr.start ::
            ((v :: rest).map (fun n => proceedAt (G.coordOf n))).dropLast)
          ++ [Instr.arrived] by simp,
      getLast?_append_cons]
    rfl
  · intro i n hi hi2 hroute
    obtain ⟨j, rfl⟩ : ∃ j, i = j + 1 := ⟨i - 1, by omega⟩
    have hr : (v :: rest)[j]? = some n := by simpa using hroute
    have hjlt : j < (((v :: rest).map (fun n => proceedAt (G.coordOf n))).dropLast).length := by
      simp only [List.length_dropLast, List.length_map, List.length_cons] at hi2 ⊢
      omega
    rw [show (Instr.start ::
        (((v :: rest).map (fun n => proceedAt (G.coordOf n))).dropLast
          ++ [Instr.arrived]))[j + 1]?
        = ((((v :: rest).map (fun n => proceedAt (G.coordOf n))).dropLast
          ++ [Instr.arrived]))[j]? by simp,
      List.getElem?_append, if_pos hjlt,
      List.dropLast_eq_take, List.getElem?_take]
    rw [if_pos (by simpa using hjlt), List.getElem?_map, hr]
    rfl

/-- Claim C6: every successful graph-engine route reports as its distance the
truncated sum of the great-circle distances over consecutive polyline points;
the result is non-negative whenever the distance function is, and synthesis
reads nothing of the graph besides node coordinates — in particular it is
independent of the edge lengths used during the search. -/
theorem claim_C6_distance (gc : Coord → Coord → ℚ) (nearest : Coord → Nat)
    (G : Graph) (fromC toC : Coord) (zones : List Coord) (r : RouteOut)
    (hgc : ∀ a b, 0 ≤ gc a b)
    (h : osmnxRoute gc nearest G fromC toC zones = .ok r) :
    r.dist = pyInt (pairSum gc r.coords)
    ∧ 0 ≤ r.dist
    ∧ ∀ G' route, G'.coordOf = G.coordOf →
        synth gc G' route = synth gc G route := by
  have hframe : ∀ G' route, G'.coordOf = G.coordOf →
      synth gc G' route = synth gc G route := by
    intro G' route hco
    cases route with
    | nil => rfl
    | cons x q => simp [synth, hco]
  unfold osmnxRoute at h
  rcases hp : plan G (nearest fromC) (nearest toC) (riskNodes G nearest zones)
    with e | ⟨route, t⟩
  · rw [hp] at h
    cases h
  · rw [hp] at h
    have h1 : (match synth gc G route with
        | none => (Except.error RouteError.degenerateRoute : Except RouteError RouteOut)
        | some (cs, dist, ins) => Except.ok ⟨cs, dist, ins, t⟩) = .ok r := h
    rcases hs : synth gc G route with _ | ⟨cs, dist, ins⟩
    · rw [hs] at h1
      cases h1
    · rw [hs] at h1
      have hr : RouteOut.mk cs dist ins t = r := by simpa using h1
      subst hr
      cases route with
      | nil => simp [synth] at hs
      | cons a q =>
        have hcs : (a :: q).map G.coordOf = cs :=
          congrArg (fun z => z.1) (Option.some.inj hs)
        have hdist : pyInt (pairSum gc ((a :: q).map G.coordOf)) = dist :=
          congrArg (fun z => z.2.1) (Option.some.inj hs)
        refine ⟨?_, ?_, hframe⟩
        · show dist = pyInt (pairSum gc cs)
          rw [← hcs, ← hdist]
        · show (0 : ℤ) ≤ dist
          rw [← hdist]
          exact pyInt_nonneg (pairSum_nonneg hgc _)

/-- The `ox.nearest_nodes` stand-in used by concrete pipeline runs. -/
def nearestDemo : Coord → Nat := fun c => if c.lat = 0 then 0 else 2

/-- The route the pipeline produces on the square demo graph. -/
def routeDemo : RouteOut :=
  ⟨[⟨0, 1⟩, ⟨1, 2⟩, ⟨2, 3⟩], 4, [.start, .proceed 1 2, .arrived], .safe⟩

/-- Claim C6 witness: the demo run's reported distance is the truncated
pairwise sum over its own polyline. -/
theorem claim_C6_witness : routeDemo.dist = pyInt (pairSum gcDemo routeDemo.coords) :=
  (claim_C6_distance gcDemo nearestDemo Gdemo ⟨0, 1⟩ ⟨2, 3⟩ [] routeDemo
    (fun a b => add_nonneg (abs_nonneg _) (abs_nonneg _)) (by decide)).1

/-- Claim C7 witness: the three-point demo synthesis ends with the arrival
marker. -/
theorem claim_C7_witness :
    ([Instr.start, .proceed 1 2, .arrived] : List Instr).getLast? = some .arrived :=
  (claim_C7_instructions gcDemo Gdemo [0, 1, 2] [⟨0, 1⟩, ⟨1, 2⟩, ⟨2, 3⟩] 4
    [.start, .proceed 1 2, .arrived] (by decide) (by decide)).2.2.1

/-- A route classified `risky` comes from the search on the unfiltered
original graph. -/
theorem plan_risky_eq {G : Graph} {o d : Nat} {ex : List Nat} {p : List Nat}
    (h : plan G o d ex = .ok (p, .risky)) : shortestPath G o d = some p := by
  unfold plan at h
  rcases h1 : shortestPath (removeNodes G ex) o d with _ | p₁
  · rw [h1] at h
    rcases h2 : shortestPath G o d with _ | p₂
    · rw [h2] at h
      cases h
    · rw [h2] at h
      have hp2 : p₂ = p := by simpa using h
      rw [hp2]
  · rw [h1] at h
    simp at h

/-- Claim C9: the Risk Filter never mutates the fetched graph: the filtered
graph is a derived copy (its nodes and edges are exactly those of the
original avoiding the excluded set, its coordinates the very same function),
and the pipeline's later reads go to the pristine original — the polyline is
looked up in the unfiltered graph and a `risky` fallback is the shortest-path
search on the unfiltered graph itself. -/
theorem claim_C9_frame (G : Graph) (ex : List Nat) (gc : Coord → Coord → ℚ)
    (nearest : Coord → Nat) (fromC toC : Coord) (zones : List Coord) :
    (∀ x, x ∈ (removeNodes G ex).nodes ↔ x ∈ G.nodes ∧ x ∉ ex)
    ∧ (∀ e, e ∈ (removeNodes G ex).edges ↔ e ∈ G.edges ∧ e.src ∉ ex ∧ e.dst ∉ ex)
    ∧ (removeNodes G ex).coordOf = G.coordOf
    ∧ (∀ r, osmnxRoute gc nearest G fromC toC zones = .ok r →
        ∃ route t, plan G (nearest fromC) (nearest toC)
            (riskNodes G nearest zones) = .ok (route, t)
          ∧ r.coords = route.map G.coordOf
          ∧ (t = .risky → shortestPath G (nearest fromC) (nearest toC) = some route)) := by
  refine ⟨fun x => mem_removeNodes_nodes, fun e => mem_removeNodes_edges, rfl, ?_⟩
  intro r h
  unfold osmnxRoute at h
  rcases hp : plan G (nearest fromC) (nearest toC) (riskNodes G nearest zones)
    with e | ⟨route, t⟩
  · rw [hp] at h
    cases h
  · rw [hp] at h
    have h1 : (match synth gc G route with
        | none => (Except.error RouteError.degenerateRoute : Except RouteError RouteOut)
        | some (cs, dist, ins) => Except.ok ⟨cs, dist, ins, t⟩) = .ok r := h
    rcases hs : synth gc G route with _ | ⟨cs, dist, ins⟩
    · rw [hs] at h1
      cases h1
    · rw [hs] at h1
      have hr : RouteOut.mk cs dist ins t = r := by simpa using h1
      subst hr
      refine ⟨route, t, rfl, ?_, ?_⟩
      · cases route with
        | nil => simp [synth] at hs
        | cons a q =>
          show cs = (a :: q).map G.coordOf
          exact (congrArg (fun z => z.1) (Option.some.inj hs)).symm
      · intro ht
        subst ht
        exact plan_risky_eq hp

/-- Claim C9 witness: on the demo graph the filtered copy keeps the very
coordinate table of the original. -/
theorem claim_C9_witness : (removeNodes Gdemo [1]).coordOf = Gdemo.coordOf :=
  (claim_C9_frame Gdemo [1] gcDemo nearestDemo ⟨0, 1⟩ ⟨2, 3⟩ []).2.2.1

/-! ### Claim C10: endpoint normalization -/

/-- Claim C10: the geocoder is consulted for an endpoint iff a latitude or
longitude is missing and a (truthy) place name is present; with both
coordinates present they pass through unchanged and the place name is
ignored (the result does not depend on the geocoder at all); and once both
endpoints resolve, the missing-coordinate input error is decided on the
post-normalization values. -/
theorem claim_C10_normalize (geo geo' : String → Option (ℚ × ℚ))
    (e : EndpointInput) (r : NavRequest) (f t : Option ℚ × Option ℚ) :
    (geocodeCond e = false → resolveEndpoint geo e = .ok (e.lat, e.lon))
    ∧ (geocodeCond e = false → resolveEndpoint geo e = resolveEndpoint geo' e)
    ∧ (∀ a b, e.lat = some a → e.lon = some b →
        resolveEndpoint geo e = .ok (some a, some b))
    ∧ (resolveEndpoint geo r.fromE = .ok f → resolveEndpoint geo r.toE = .ok t →
        (normalizeRequest geo r = .error .invalidInput ↔
          (f.1 = none ∨ f.2 = none ∨ t.1 = none ∨ t.2 = none))) := by
  refine ⟨?_, ?_, ?_, ?_⟩
  · intro h
    simp [resolveEndpoint, h]
  · intro h
    simp [resolveEndpoint, h]
  · intro a b ha hb
    simp [resolveEndpoint, geocodeCond, ha, hb]
  · intro h1 h2
    unfold normalizeRequest
    rw [h1, h2]
    rcases f with ⟨f1, f2⟩
    rcases t with ⟨t1, t2⟩
    cases f1 <;> cases f2 <;> cases t1 <;> cases t2 <;> simp

/-- Claim C10 witness: an endpoint with both coordinates and a place name
keeps its coordinates. -/
theorem claim_C10_witness :
    resolveEndpoint geoDemo epDemo = .ok (some 1, some 2) :=
  (claim_C10_normalize geoDemo geoDemo epDemo ⟨epDemo, epDemo⟩
    (some 1, some 2) (some 1, some 2)).2.2.1 1 2 rfl rfl

end SurakshaNav
